import Mathlib

/-!
Verification of the NetRep subset eigenvector routine (`SvdProps` in
`src/package/src/subsetSummary.cpp`).

The source file contains the index validation (an out-of-range check over the
requested one-based column indices, throwing `std::out_of_range` with a fixed
message) and nothing else: the decomposition body is absent from the
repository.  The validation is embedded directly from the source; the
materialization, truncated SVD, sign correction and variance-explained
computation are modelled from the specification (centered SVD, dominant
singular triplet, sign matched to the column average, variance ratio).
-/

namespace NetRep

open Finset

/-- Model of the bigmemory BigMatrix handle reached through the `XPtr` in the
source: a row count, a column count and a zero-based real entry accessor.
The spec requires at least one row and one column. -/
structure BigMatrix where
  nrow : ℕ
  ncol : ℕ
  entry : ℕ → ℕ → ℝ
  nrow_pos : 0 < nrow
  ncol_pos : 0 < ncol

/-- Message of the `std::out_of_range` exception thrown by `SvdProps`
(subsetSummary.cpp, lines 41-44). -/
def outOfRangeMessage : String :=
  "Some of the requested indices for network subset are outside of the given data matrix."

/-- Bounds test of `SvdProps` (subsetSummary.cpp, lines 39-40): the condition
`is_true(any(subsetIndices <= 0)) || is_true(any(subsetIndices > xpDat->ncol()))`. -/
def anyOutOfRange (ncol : ℕ) (idx : List ℤ) : Bool :=
  idx.any (fun k => decide (k ≤ 0)) || idx.any (fun k => decide ((ncol : ℤ) < k))

/-- Errors the operation can surface: `outOfRange` carries the message of the
exception thrown by the source; `degenerateInput` is the failure the spec
prescribes for a zero-variance subset (the decomposition body being absent
from the source, the spec's hard-failure convention is adopted). -/
inductive SvdError where
  | outOfRange (msg : String)
  | degenerateInput

/-- Result pair returned on success: the sign-corrected eigenvector, a dense
sequence of `rowCount()` real values, and the proportion of variance
explained. -/
structure EigenResult (R : ℕ) where
  eigenvector : Fin R → ℝ
  varianceExplained : ℝ

/-- Outcome of one call: a complete result or an error, never anything
in between. -/
abbrev SvdOutcome (R : ℕ) := Except SvdError (EigenResult R)

noncomputable section

/-- Dot product of two real vectors. -/
def dot {n : ℕ} (x y : Fin n → ℝ) : ℝ := ∑ i, x i * y i

/-- Modelled from the spec: the WorkingMatrix materialized by the Subset
Materializer (absent from the source); entry `(i, j)` is
`BackingMatrix[i][SubsetIndices[j]]`, the one-based index converted to the
zero-based accessor. -/
def workingMatrix (B : BigMatrix) (idx : List ℤ) :
    Fin B.nrow → Fin idx.length → ℝ :=
  fun i j => B.entry i ((idx.get j).toNat - 1)

/-- Modelled from the spec: the column centering applied before the
decomposition (each column minus its mean over the `nrow` rows); the
decomposition body is absent from the source. -/
def centeredMatrix (B : BigMatrix) (idx : List ℤ) :
    Fin B.nrow → Fin idx.length → ℝ :=
  fun i j => workingMatrix B idx i j - (∑ r, workingMatrix B idx r j) / (B.nrow : ℝ)

/-- Modelled from the spec: the column-wise average vector of the
WorkingMatrix (mean across the selected columns, a length `nrow` vector),
used by the sign correction; absent from the source. -/
def colAverage (B : BigMatrix) (idx : List ℤ) : Fin B.nrow → ℝ :=
  fun i => (∑ j, workingMatrix B idx i j) / (idx.length : ℝ)

/-- Modelled from the spec: the total variance of the working matrix, the sum
of the squared entries of the centered matrix (equal to the sum of the squared
singular values); absent from the source. -/
def totalVariance (B : BigMatrix) (idx : List ℤ) : ℝ :=
  ∑ i, ∑ j, centeredMatrix B idx i j ^ 2

/-- Modelled from the spec: the sign convention; the eigenvector is negated
exactly when its dot product with the average vector is negative; absent from
the source. -/
def signCorrect {n : ℕ} (avg u : Fin n → ℝ) : Fin n → ℝ :=
  if dot u avg < 0 then -u else u

/-- Gram operator of an `R × K` matrix, sending `v` to `(A Aᵀ) v`, written
with explicit sums. -/
def gramApply {R K : ℕ} (A : Fin R → Fin K → ℝ) (v : Fin R → ℝ) : Fin R → ℝ :=
  fun i => ∑ r, (∑ j, A i j * A r j) * v r

/-- Modelled from the spec: the output contract of the Dominant-Eigenvector
Solver (absent from the source). `u` is a unit left singular vector of `A`
for the largest singular value `σ`: an eigenvector of `A Aᵀ` with eigenvalue
`σ²` whose Rayleigh quotient dominates that of every unit vector. -/
structure DominantPair {R K : ℕ} (A : Fin R → Fin K → ℝ)
    (u : Fin R → ℝ) (σ : ℝ) : Prop where
  unit : dot u u = 1
  sigma_nonneg : 0 ≤ σ
  eigen : gramApply A u = fun i => σ ^ 2 * u i
  dominant : ∀ v : Fin R → ℝ, dot v v = 1 → dot (gramApply A v) v ≤ σ ^ 2

/-- The full operation `ComputeSubsetEigenSummary` (`SvdProps`).  The bounds
check, embedded from the source, runs first and fails with the thrown
message; the remaining branches are modelled from the spec (the decomposition
body is absent from the source): a degenerate subset (zero total variance)
fails with `DegenerateInput`, and otherwise the operation returns the
sign-corrected dominant unit eigenvector together with the ratio of `σ²` to
the total variance. -/
inductive SvdPropsSpec (B : BigMatrix) (idx : List ℤ) : SvdOutcome B.nrow → Prop where
  | outOfRange (h : anyOutOfRange B.ncol idx = true) :
      SvdPropsSpec B idx (.error (.outOfRange outOfRangeMessage))
  | degenerate (h : anyOutOfRange B.ncol idx = false)
      (hv : totalVariance B idx = 0) :
      SvdPropsSpec B idx (.error .degenerateInput)
  | ok (h : anyOutOfRange B.ncol idx = false)
      (hv : totalVariance B idx ≠ 0)
      (u : Fin B.nrow → ℝ) (σ : ℝ)
      (hd : DominantPair (centeredMatrix B idx) u σ) :
      SvdPropsSpec B idx
        (.ok ⟨signCorrect (colAverage B idx) u, σ ^ 2 / totalVariance B idx⟩)

/-- Entry accessor of the spec's scenario matrix, 4 rows by 3 columns,
`[[1,2,5],[2,4,5],[3,6,5],[4,8,5]]` (zero-based). -/
def scenarioEntry : ℕ → ℕ → ℝ := fun i j =>
  if j = 0 then (if i = 0 then 1 else if i = 1 then 2 else if i = 2 then 3 else 4)
  else if j = 1 then (if i = 0 then 2 else if i = 1 then 4 else if i = 2 then 6 else 8)
  else 5

/-- The spec's scenario backing matrix: 4 rows, 3 columns. -/
def scenarioMatrix : BigMatrix :=
  ⟨4, 3, scenarioEntry, by norm_num, by norm_num⟩

/-- Centered first column of the scenario matrix: the direction every dominant
eigenvector of the selected centered submatrices is proportional to. -/
def cVec : Fin 4 → ℝ := ![-(3 / 2), -(1 / 2), 1 / 2, 3 / 2]

/-- Column weights of the rank-one factorization of the centered scenario
submatrix for indices `[1, 2]`. -/
def wVec : Fin 2 → ℝ := ![1, 2]

/-- Unit dominant eigenvector of the centered scenario submatrix (same for
indices `[1, 2]` and for index `[1]` alone). -/
def scenarioEigenvector : Fin 4 → ℝ := fun i => cVec i / Real.sqrt 5

/-- The result the modelled operation returns on the scenario matrix with
indices `[1, 2]` (and with index `[1]`): the centered direction, unit
normalized, with variance explained 1. -/
def scenarioResult : EigenResult 4 := ⟨scenarioEigenvector, 1⟩

/-- A 2 by 1 backing matrix whose single column is constant, the degenerate
case of the spec. -/
def constantMatrix : BigMatrix := ⟨2, 1, fun _ _ => 5, by norm_num, by norm_num⟩

/-- Column weight vector of the rank-one factorization of a single selected
column. -/
def oneVec : Fin 1 → ℝ := ![1]

/-- Modelled from the spec: the centered, unit-normalized single selected
column, the reference eigenvector of the single-column case (the solver being
absent from the source). -/
def normalizedCenteredColumn (B : BigMatrix) (k : ℤ) : Fin B.nrow → ℝ :=
  fun i => centeredMatrix B [k] i ⟨0, Nat.one_pos⟩ /
    Real.sqrt (dot (fun r => centeredMatrix B [k] r ⟨0, Nat.one_pos⟩)
      (fun r => centeredMatrix B [k] r ⟨0, Nat.one_pos⟩))

/-- The eigenvector the spec scenario claims, the constant direction
`[1, 2, 3, 4]` normalized to unit length. -/
def claimedScenarioEigenvector : Fin 4 → ℝ :=
  fun i => ![(1 : ℝ), 2, 3, 4] i / Real.sqrt 30

end

lemma dot_self_eq_sum_sq {n : ℕ} (v : Fin n → ℝ) : dot v v = ∑ i, v i ^ 2 :=
  Finset.sum_congr rfl fun i _ => (sq (v i)).symm

lemma dot_self_nonneg {n : ℕ} (v : Fin n → ℝ) : 0 ≤ dot v v := by
  rw [dot_self_eq_sum_sq]
  exact Finset.sum_nonneg fun i _ => sq_nonneg _

lemma dot_neg_left {n : ℕ} (u v : Fin n → ℝ) : dot (-u) v = -dot u v := by
  unfold dot
  rw [← Finset.sum_neg_distrib]
  exact Finset.sum_congr rfl fun i _ => by simp [neg_mul]

lemma dot_gramApply {R K : ℕ} (A : Fin R → Fin K → ℝ) (v : Fin R → ℝ) :
    dot (gramApply A v) v = ∑ j, (∑ i, A i j * v i) ^ 2 := by
  unfold dot gramApply
  calc ∑ i, (∑ r, (∑ j, A i j * A r j) * v r) * v i
      = ∑ i, ∑ r, ∑ j, (A i j * v i) * (A r j * v r) := by
        refine Finset.sum_congr rfl fun i _ => ?_
        rw [Finset.sum_mul]
        refine Finset.sum_congr rfl fun r _ => ?_
        rw [mul_assoc, Finset.sum_mul]
        exact Finset.sum_congr rfl fun j _ => by ring
    _ = ∑ i, ∑ j, ∑ r, (A i j * v i) * (A r j * v r) := by
        exact Finset.sum_congr rfl fun i _ => Finset.sum_comm
    _ = ∑ j, ∑ i, ∑ r, (A i j * v i) * (A r j * v r) := Finset.sum_comm
    _ = ∑ j, (∑ i, A i j * v i) * (∑ r, A r j * v r) := by
        refine Finset.sum_congr rfl fun j _ => ?_
        exact (Finset.sum_mul_sum _ _ _ _).symm
    _ = ∑ j, (∑ i, A i j * v i) ^ 2 := by
        refine Finset.sum_congr rfl fun j _ => ?_
        rw [sq]

lemma gram_rayleigh_nonneg {R K : ℕ} (A : Fin R → Fin K → ℝ) (v : Fin R → ℝ) :
    0 ≤ dot (gramApply A v) v := by
  rw [dot_gramApply]
  exact Finset.sum_nonneg fun j _ => sq_nonneg _

lemma gram_rayleigh_le_total {R K : ℕ} (A : Fin R → Fin K → ℝ) (v : Fin R → ℝ) :
    dot (gramApply A v) v ≤ (∑ i, ∑ j, A i j ^ 2) * dot v v := by
  rw [dot_gramApply, dot_self_eq_sum_sq]
  calc ∑ j, (∑ i, A i j * v i) ^ 2
      ≤ ∑ j, (∑ i, A i j ^ 2) * (∑ i, v i ^ 2) :=
        Finset.sum_le_sum fun j _ => Finset.sum_mul_sq_le_sq_mul_sq _ _ _
    _ = (∑ j, ∑ i, A i j ^ 2) * (∑ i, v i ^ 2) := by rw [Finset.sum_mul]
    _ = (∑ i, ∑ j, A i j ^ 2) * (∑ i, v i ^ 2) := by rw [Finset.sum_comm]

lemma signCorrect_dot_self {n : ℕ} (avg u : Fin n → ℝ) :
    dot (signCorrect avg u) (signCorrect avg u) = dot u u := by
  unfold signCorrect
  split
  · unfold dot
    exact Finset.sum_congr rfl fun i _ => by simp [neg_mul_neg]
  · rfl

lemma signCorrect_dot_avg_nonneg {n : ℕ} (avg u : Fin n → ℝ) :
    0 ≤ dot (signCorrect avg u) avg := by
  unfold signCorrect
  split
  case isTrue h =>
    rw [dot_neg_left]
    linarith
  case isFalse h =>
    exact not_lt.mp h

lemma signCorrect_of_neg {n : ℕ} {avg u : Fin n → ℝ} (h : dot u avg < 0) :
    signCorrect avg u = -u := by
  unfold signCorrect
  rw [if_pos h]

lemma dot_self_eq_zero_iff {n : ℕ} (v : Fin n → ℝ) :
    dot v v = 0 ↔ ∀ i, v i = 0 := by
  rw [dot_self_eq_sum_sq,
    Finset.sum_eq_zero_iff_of_nonneg (fun i _ => sq_nonneg (v i))]
  constructor
  · intro h i
    exact (pow_eq_zero_iff (by norm_num : 2 ≠ 0)).mp (h i (Finset.mem_univ i))
  · intro h i _
    rw [h i]
    norm_num

lemma signCorrect_eq_or {n : ℕ} (avg u : Fin n → ℝ) :
    signCorrect avg u = u ∨ signCorrect avg u = -u := by
  unfold signCorrect
  split
  · exact Or.inr rfl
  · exact Or.inl rfl

lemma anyOutOfRange_iff_exists (C : ℕ) (idx : List ℤ) :
    anyOutOfRange C idx = true ↔ ∃ k ∈ idx, k ≤ 0 ∨ (C : ℤ) < k := by
  unfold anyOutOfRange
  simp only [Bool.or_eq_true, List.any_eq_true, decide_eq_true_eq]
  constructor
  · rintro (⟨k, hk, hle⟩ | ⟨k, hk, hgt⟩)
    · exact ⟨k, hk, Or.inl hle⟩
    · exact ⟨k, hk, Or.inr hgt⟩
  · rintro ⟨k, hk, hle | hgt⟩
    · exact Or.inl ⟨k, hk, hle⟩
    · exact Or.inr ⟨k, hk, hgt⟩

lemma dot_sq_le_dot_mul_dot {n : ℕ} (c v : Fin n → ℝ) :
    dot c v ^ 2 ≤ dot c c * dot v v := by
  rw [dot_self_eq_sum_sq c, dot_self_eq_sum_sq v]
  exact Finset.sum_mul_sq_le_sq_mul_sq _ _ _

lemma dot_single {n : ℕ} (c : Fin n → ℝ) (i : Fin n) :
    dot c (Pi.single i 1) = c i := by
  unfold dot
  rw [Finset.sum_eq_single i]
  · simp
  · intro r _ hr
    simp [Pi.single_eq_of_ne hr]
  · intro h
    exact absurd (Finset.mem_univ i) h

lemma single_unit {n : ℕ} (i : Fin n) :
    dot (Pi.single i 1 : Fin n → ℝ) (Pi.single i 1) = 1 := by
  have := dot_single (Pi.single i 1 : Fin n → ℝ) i
  rw [this, Pi.single_eq_same]

lemma gram_single_rayleigh {R K : ℕ} (A : Fin R → Fin K → ℝ) (i : Fin R) :
    dot (gramApply A (Pi.single i 1)) (Pi.single i 1) = ∑ j, A i j ^ 2 := by
  rw [dot_gramApply]
  refine Finset.sum_congr rfl fun j _ => ?_
  congr 1
  rw [Finset.sum_eq_single i]
  · simp
  · intro r _ hr
    simp [Pi.single_eq_of_ne hr]
  · intro h
    exact absurd (Finset.mem_univ i) h

lemma DominantPair.sq_eq_rayleigh {R K : ℕ} {A : Fin R → Fin K → ℝ}
    {u : Fin R → ℝ} {σ : ℝ} (hd : DominantPair A u σ) :
    σ ^ 2 = dot (gramApply A u) u := by
  rw [hd.eigen]
  have h : dot (fun i => σ ^ 2 * u i) u = σ ^ 2 * dot u u := by
    unfold dot
    rw [Finset.mul_sum]
    exact Finset.sum_congr rfl fun i _ => by ring
  rw [h, hd.unit, mul_one]

lemma DominantPair.sq_le_total {R K : ℕ} {A : Fin R → Fin K → ℝ}
    {u : Fin R → ℝ} {σ : ℝ} (hd : DominantPair A u σ) :
    σ ^ 2 ≤ ∑ i, ∑ j, A i j ^ 2 := by
  rw [hd.sq_eq_rayleigh]
  have h := gram_rayleigh_le_total A u
  rw [hd.unit, mul_one] at h
  exact h

lemma DominantPair.sq_pos {R K : ℕ} {A : Fin R → Fin K → ℝ}
    {u : Fin R → ℝ} {σ : ℝ} (hd : DominantPair A u σ)
    (hA : (∑ i, ∑ j, A i j ^ 2) ≠ 0) : 0 < σ ^ 2 := by
  obtain ⟨i, j, hij⟩ : ∃ i j, A i j ≠ 0 := by
    by_contra h
    push_neg at h
    exact hA (by simp [h])
  have h1 : (∑ j, A i j ^ 2) ≤ σ ^ 2 := by
    rw [← gram_single_rayleigh A i]
    exact hd.dominant _ (single_unit i)
  have h2 : 0 < ∑ j, A i j ^ 2 :=
    Finset.sum_pos' (fun r _ => sq_nonneg _)
      ⟨j, Finset.mem_univ j, lt_of_le_of_ne (sq_nonneg _) (Ne.symm (pow_ne_zero 2 hij))⟩
  linarith

lemma totalVariance_nonneg (B : BigMatrix) (idx : List ℤ) :
    0 ≤ totalVariance B idx :=
  Finset.sum_nonneg fun i _ => Finset.sum_nonneg fun j _ => sq_nonneg _

lemma rankOne_gramApply {R K : ℕ} (c : Fin R → ℝ) (w : Fin K → ℝ) (v : Fin R → ℝ) :
    gramApply (fun i j => c i * w j) v = fun i => dot w w * dot c v * c i := by
  funext i
  unfold gramApply dot
  calc ∑ r, (∑ j, (c i * w j) * (c r * w j)) * v r
      = ∑ r, c i * ((∑ j, w j * w j) * (c r * v r)) := by
        refine Finset.sum_congr rfl fun r _ => ?_
        have hinner : (∑ j, c i * w j * (c r * w j)) = c i * c r * ∑ j, w j * w j :=
          calc ∑ j, c i * w j * (c r * w j)
              = ∑ j, c i * c r * (w j * w j) := Finset.sum_congr rfl fun j _ => by ring
            _ = c i * c r * ∑ j, w j * w j := (Finset.mul_sum _ _ _).symm
        rw [hinner]
        ring
    _ = c i * ∑ r, (∑ j, w j * w j) * (c r * v r) := by rw [← Finset.mul_sum]
    _ = c i * ((∑ j, w j * w j) * ∑ r, c r * v r) := by rw [← Finset.mul_sum]
    _ = (∑ j, w j * w j) * (∑ r, c r * v r) * c i := by ring

lemma rankOne_total {R K : ℕ} (c : Fin R → ℝ) (w : Fin K → ℝ) :
    (∑ i, ∑ j, (c i * w j) ^ 2) = dot c c * dot w w := by
  unfold dot
  calc ∑ i, ∑ j, (c i * w j) ^ 2
      = ∑ i, (c i * c i) * ∑ j, w j * w j := by
        refine Finset.sum_congr rfl fun i _ => ?_
        rw [Finset.mul_sum]
        exact Finset.sum_congr rfl fun j _ => by ring
    _ = (∑ i, c i * c i) * ∑ j, w j * w j := by rw [Finset.sum_mul]

lemma dot_div_self {n : ℕ} (c : Fin n → ℝ) (s : ℝ) :
    dot c (fun i => c i / s) = dot c c / s := by
  unfold dot
  calc ∑ i, c i * (c i / s)
      = ∑ i, (c i * c i) / s := Finset.sum_congr rfl fun i _ => by ring
    _ = (∑ i, c i * c i) / s := by rw [← Finset.sum_div]

lemma dot_normalize {n : ℕ} (c : Fin n → ℝ) (hc : dot c c ≠ 0) :
    dot c (fun i => c i / Real.sqrt (dot c c)) = Real.sqrt (dot c c) := by
  have hcc : 0 < dot c c := lt_of_le_of_ne (dot_self_nonneg c) (Ne.symm hc)
  have hs : Real.sqrt (dot c c) ^ 2 = dot c c := Real.sq_sqrt hcc.le
  have hsp : 0 < Real.sqrt (dot c c) := Real.sqrt_pos.mpr hcc
  rw [dot_div_self, Real.div_sqrt]

lemma normalize_unit {n : ℕ} (c : Fin n → ℝ) (hc : dot c c ≠ 0) :
    dot (fun i => c i / Real.sqrt (dot c c)) (fun i => c i / Real.sqrt (dot c c)) = 1 := by
  have hcc : 0 < dot c c := lt_of_le_of_ne (dot_self_nonneg c) (Ne.symm hc)
  have hs : Real.sqrt (dot c c) ^ 2 = dot c c := Real.sq_sqrt hcc.le
  have hsp : 0 < Real.sqrt (dot c c) := Real.sqrt_pos.mpr hcc
  unfold dot
  calc ∑ i, (c i / Real.sqrt (dot c c)) * (c i / Real.sqrt (dot c c))
      = ∑ i, (c i * c i) / Real.sqrt (dot c c) ^ 2 :=
        Finset.sum_congr rfl fun i _ => by rw [sq]; ring
    _ = (∑ i, c i * c i) / Real.sqrt (dot c c) ^ 2 := by rw [← Finset.sum_div]
    _ = dot c c / dot c c := by rw [hs]; rfl
    _ = 1 := div_self hc

lemma dot_scaled_self {n : ℕ} (t : ℝ) (c : Fin n → ℝ) :
    dot (fun i => t * c i) (fun i => t * c i) = t ^ 2 * dot c c := by
  unfold dot
  rw [Finset.mul_sum]
  exact Finset.sum_congr rfl fun i _ => by ring

lemma dot_mul_left {n : ℕ} (a d : ℝ) (c v : Fin n → ℝ) :
    dot (fun i => a * d * c i) v = a * d * dot c v := by
  unfold dot
  rw [Finset.mul_sum]
  exact Finset.sum_congr rfl fun i _ => by ring

lemma dominantPair_rankOne {R K : ℕ} (c : Fin R → ℝ) (w : Fin K → ℝ)
    (hc : dot c c ≠ 0) :
    DominantPair (fun i j => c i * w j) (fun i => c i / Real.sqrt (dot c c))
      (Real.sqrt (dot w w * dot c c)) := by
  have hcc : 0 < dot c c := lt_of_le_of_ne (dot_self_nonneg c) (Ne.symm hc)
  have hwn : 0 ≤ dot w w := dot_self_nonneg w
  have hs_sq : Real.sqrt (dot c c) ^ 2 = dot c c := Real.sq_sqrt hcc.le
  have hsp : 0 < Real.sqrt (dot c c) := Real.sqrt_pos.mpr hcc
  have hσ_sq : Real.sqrt (dot w w * dot c c) ^ 2 = dot w w * dot c c :=
    Real.sq_sqrt (mul_nonneg hwn hcc.le)
  refine ⟨normalize_unit c hc, Real.sqrt_nonneg _, ?_, ?_⟩
  · rw [rankOne_gramApply, dot_normalize c hc]
    funext i
    rw [hσ_sq]
    field_simp
    linear_combination dot w w * c i * Real.mul_self_sqrt hcc.le
  · intro v hv
    rw [rankOne_gramApply, dot_mul_left, hσ_sq]
    have hcs : dot c v ^ 2 ≤ dot c c := by
      have := dot_sq_le_dot_mul_dot c v
      rwa [hv, mul_one] at this
    calc dot w w * dot c v * dot c v
        = dot w w * dot c v ^ 2 := by ring
      _ ≤ dot w w * dot c c := mul_le_mul_of_nonneg_left hcs hwn

lemma dominantPair_rankOne_inv {R K : ℕ} {c : Fin R → ℝ} {w : Fin K → ℝ}
    (hc : dot c c ≠ 0) (hw : dot w w ≠ 0) {u : Fin R → ℝ} {σ : ℝ}
    (hd : DominantPair (fun i j => c i * w j) u σ) :
    σ ^ 2 = dot w w * dot c c ∧
      (u = (fun i => c i / Real.sqrt (dot c c)) ∨
        u = fun i => -(c i / Real.sqrt (dot c c))) := by
  have hcc : 0 < dot c c := lt_of_le_of_ne (dot_self_nonneg c) (Ne.symm hc)
  have hww : 0 < dot w w := lt_of_le_of_ne (dot_self_nonneg w) (Ne.symm hw)
  have hs_sq : Real.sqrt (dot c c) ^ 2 = dot c c := Real.sq_sqrt hcc.le
  have hsp : 0 < Real.sqrt (dot c c) := Real.sqrt_pos.mpr hcc
  have hub : σ ^ 2 ≤ dot c c * dot w w := by
    have h := hd.sq_le_total
    rwa [rankOne_total] at h
  have hlb : dot w w * dot c c ≤ σ ^ 2 := by
    have h := hd.dominant _ (normalize_unit c hc)
    rw [rankOne_gramApply, dot_normalize c hc, dot_mul_left, dot_normalize c hc] at h
    calc dot w w * dot c c
        = dot w w * Real.sqrt (dot c c) * Real.sqrt (dot c c) := by
          rw [mul_assoc, ← sq, hs_sq]
      _ ≤ σ ^ 2 := h
  have hσ2 : σ ^ 2 = dot w w * dot c c := le_antisymm (by linarith) hlb
  have hσ2_pos : 0 < σ ^ 2 := hσ2 ▸ mul_pos hww hcc
  refine ⟨hσ2, ?_⟩
  have heig := hd.eigen
  rw [rankOne_gramApply] at heig
  have hu : u = fun i => dot w w * dot c u / σ ^ 2 * c i := by
    funext i
    have h := congrFun heig i
    field_simp [hσ2_pos.ne']
    linarith [h]
  set t := dot w w * dot c u / σ ^ 2 with ht
  have hunit := hd.unit
  rw [hu, dot_scaled_self] at hunit
  have hts : (t * Real.sqrt (dot c c)) * (t * Real.sqrt (dot c c)) = 1 := by
    calc (t * Real.sqrt (dot c c)) * (t * Real.sqrt (dot c c))
        = t ^ 2 * Real.sqrt (dot c c) ^ 2 := by ring
      _ = t ^ 2 * dot c c := by rw [hs_sq]
      _ = 1 := hunit
  rcases mul_self_eq_one_iff.mp hts with h1 | h1
  · left
    rw [hu]
    funext i
    have ht1 : t = 1 / Real.sqrt (dot c c) := by
      field_simp [hsp.ne']
      linarith [h1]
    rw [ht1]
    ring
  · right
    rw [hu]
    funext i
    have ht1 : t = -(1 / Real.sqrt (dot c c)) := by
      field_simp [hsp.ne']
      linarith [h1]
    rw [ht1]
    ring

lemma dot_div_left {n : ℕ} (c v : Fin n → ℝ) (s : ℝ) :
    dot (fun i => c i / s) v = dot c v / s := by
  unfold dot
  calc ∑ i, (c i / s) * v i
      = ∑ i, (c i * v i) / s := Finset.sum_congr rfl fun i _ => by ring
    _ = (∑ i, c i * v i) / s := by rw [← Finset.sum_div]

lemma signCorrect_of_nonneg {n : ℕ} {avg u : Fin n → ℝ} (h : 0 ≤ dot u avg) :
    signCorrect avg u = u := by
  unfold signCorrect
  rw [if_neg (not_lt.mpr h)]

lemma scenario_valid12 : anyOutOfRange scenarioMatrix.ncol [1, 2] = false := by
  decide

lemma scenario_valid1 : anyOutOfRange scenarioMatrix.ncol [1] = false := by
  decide

lemma int_toNat_one : Int.toNat 1 = 1 := rfl

lemma int_toNat_two : Int.toNat 2 = 2 := rfl

lemma fin4_val_three : ((3 : Fin 4) : ℕ) = 3 := rfl

lemma scenario_row_sum (jn : ℕ) :
    (∑ r : Fin scenarioMatrix.nrow, scenarioEntry r jn) =
      scenarioEntry 0 jn + scenarioEntry 1 jn + scenarioEntry 2 jn + scenarioEntry 3 jn :=
  Fin.sum_univ_four (fun r : Fin 4 => scenarioEntry r jn)

lemma scenario_centered12 :
    centeredMatrix scenarioMatrix [1, 2] = fun i j => cVec i * wVec j := by
  funext i j
  unfold centeredMatrix workingMatrix
  fin_cases i <;> fin_cases j <;>
    (norm_num [scenarioMatrix, List.get, int_toNat_one, int_toNat_two]
     rw [scenario_row_sum]
     norm_num [scenarioEntry, cVec, wVec])

lemma scenario_centered1 :
    centeredMatrix scenarioMatrix [1] = fun i j => cVec i * oneVec j := by
  funext i j
  unfold centeredMatrix workingMatrix
  fin_cases i <;> fin_cases j <;>
    (norm_num [scenarioMatrix, List.get, int_toNat_one, int_toNat_two]
     rw [scenario_row_sum]
     norm_num [scenarioEntry, cVec, oneVec])

lemma scenario_cc : dot cVec cVec = 5 := by
  norm_num [dot, cVec, Fin.sum_univ_four]

lemma scenario_ww : dot wVec wVec = 5 := by
  norm_num [dot, wVec, Fin.sum_univ_two]

lemma one_ww : dot oneVec oneVec = 1 := by
  norm_num [dot, oneVec, Fin.sum_univ_one]

lemma scenario_tv12 : totalVariance scenarioMatrix [1, 2] = 25 := by
  unfold totalVariance
  rw [scenario_centered12]
  have h := rankOne_total cVec wVec
  rw [scenario_cc, scenario_ww] at h
  calc (∑ i, ∑ j, (fun i j => cVec i * wVec j) i j ^ 2)
      = ∑ i, ∑ j, (cVec i * wVec j) ^ 2 := rfl
    _ = 25 := by rw [h]; norm_num

lemma scenario_tv1 : totalVariance scenarioMatrix [1] = 5 := by
  unfold totalVariance
  rw [scenario_centered1]
  have h := rankOne_total cVec oneVec
  rw [scenario_cc, one_ww] at h
  calc (∑ i, ∑ j, (fun i j => cVec i * oneVec j) i j ^ 2)
      = ∑ i, ∑ j, (cVec i * oneVec j) ^ 2 := rfl
    _ = 5 := by rw [h]; norm_num

lemma scenario_avg12_dot : dot cVec (colAverage scenarioMatrix [1, 2]) = 15 / 2 := by
  have havg : ∀ i : Fin 4, colAverage scenarioMatrix [1, 2] i =
      (scenarioEntry i 0 + scenarioEntry i 1) / ((2 : ℕ) : ℝ) := fun i =>
    congrArg (fun x => x / ((2 : ℕ) : ℝ))
      (Fin.sum_univ_two (fun j : Fin 2 => workingMatrix scenarioMatrix [1, 2] i j))
  unfold dot
  simp only [havg]
  rw [Fin.sum_univ_four]
  norm_num [scenarioEntry, cVec, fin4_val_three]

lemma scenario_avg1_dot : dot cVec (colAverage scenarioMatrix [1]) = 5 := by
  have havg : ∀ i : Fin 4, colAverage scenarioMatrix [1] i =
      scenarioEntry i 0 / ((1 : ℕ) : ℝ) := fun i =>
    congrArg (fun x => x / ((1 : ℕ) : ℝ))
      (Fin.sum_univ_one (fun j : Fin 1 => workingMatrix scenarioMatrix [1] i j))
  unfold dot
  simp only [havg]
  rw [Fin.sum_univ_four]
  norm_num [scenarioEntry, cVec, fin4_val_three]

lemma scenario_dominant12 :
    DominantPair (centeredMatrix scenarioMatrix [1, 2]) scenarioEigenvector 5 := by
  rw [scenario_centered12]
  have hcc : dot cVec cVec ≠ 0 := by rw [scenario_cc]; norm_num
  have h := dominantPair_rankOne cVec wVec hcc
  have hu : (fun i => cVec i / Real.sqrt (dot cVec cVec)) = scenarioEigenvector := by
    funext i
    rw [scenario_cc]
    rfl
  have hσ : Real.sqrt (dot wVec wVec * dot cVec cVec) = 5 := by
    rw [scenario_cc, scenario_ww]
    rw [show (5 : ℝ) * 5 = 5 ^ 2 by norm_num, Real.sqrt_sq (by norm_num : (0:ℝ) ≤ 5)]
  rw [hu, hσ] at h
  exact h

lemma scenario_dominant1 :
    DominantPair (centeredMatrix scenarioMatrix [1]) scenarioEigenvector (Real.sqrt 5) := by
  rw [scenario_centered1]
  have hcc : dot cVec cVec ≠ 0 := by rw [scenario_cc]; norm_num
  have h := dominantPair_rankOne cVec oneVec hcc
  have hu : (fun i => cVec i / Real.sqrt (dot cVec cVec)) = scenarioEigenvector := by
    funext i
    rw [scenario_cc]
    rfl
  have hσ : Real.sqrt (dot oneVec oneVec * dot cVec cVec) = Real.sqrt 5 := by
    rw [scenario_cc, one_ww, one_mul]
  rw [hu, hσ] at h
  exact h

lemma scenario_sign12 :
    signCorrect (colAverage scenarioMatrix [1, 2]) scenarioEigenvector =
      scenarioEigenvector := by
  apply signCorrect_of_nonneg
  have h : dot scenarioEigenvector (colAverage scenarioMatrix [1, 2]) =
      dot cVec (colAverage scenarioMatrix [1, 2]) / Real.sqrt 5 := by
    unfold scenarioEigenvector
    rw [dot_div_left]
  rw [h, scenario_avg12_dot]
  positivity

lemma scenario_sign1 :
    signCorrect (colAverage scenarioMatrix [1]) scenarioEigenvector =
      scenarioEigenvector := by
  apply signCorrect_of_nonneg
  have h : dot scenarioEigenvector (colAverage scenarioMatrix [1]) =
      dot cVec (colAverage scenarioMatrix [1]) / Real.sqrt 5 := by
    unfold scenarioEigenvector
    rw [dot_div_left]
  rw [h, scenario_avg1_dot]
  positivity

lemma scenarioSpec12 : SvdPropsSpec scenarioMatrix [1, 2] (.ok scenarioResult) := by
  have htv : totalVariance scenarioMatrix [1, 2] ≠ 0 := by
    rw [scenario_tv12]; norm_num
  have h := SvdPropsSpec.ok scenario_valid12 htv scenarioEigenvector 5 scenario_dominant12
  have heq : (⟨signCorrect (colAverage scenarioMatrix [1, 2]) scenarioEigenvector,
      (5 : ℝ) ^ 2 / totalVariance scenarioMatrix [1, 2]⟩ : EigenResult scenarioMatrix.nrow) =
      scenarioResult := by
    rw [scenario_sign12, scenario_tv12]
    unfold scenarioResult
    norm_num
  rw [heq] at h
  exact h

lemma scenarioSpec1 : SvdPropsSpec scenarioMatrix [1] (.ok scenarioResult) := by
  have htv : totalVariance scenarioMatrix [1] ≠ 0 := by
    rw [scenario_tv1]; norm_num
  have h := SvdPropsSpec.ok scenario_valid1 htv scenarioEigenvector (Real.sqrt 5)
    scenario_dominant1
  have heq : (⟨signCorrect (colAverage scenarioMatrix [1]) scenarioEigenvector,
      Real.sqrt 5 ^ 2 / totalVariance scenarioMatrix [1]⟩ : EigenResult scenarioMatrix.nrow) =
      scenarioResult := by
    rw [scenario_sign1, scenario_tv1, Real.sq_sqrt (by norm_num : (0:ℝ) ≤ 5)]
    unfold scenarioResult
    norm_num
  rw [heq] at h
  exact h

lemma constant_valid : anyOutOfRange constantMatrix.ncol [1] = false := by
  decide

lemma constant_tv : totalVariance constantMatrix [1] = 0 := by
  have key : (5 : ℝ) - (∑ _r : Fin 2, (5 : ℝ)) / ((2 : ℕ) : ℝ) = 0 := by
    rw [Fin.sum_univ_two]
    norm_num
  have hc : ∀ (i : Fin constantMatrix.nrow) (j : Fin ([1] : List ℤ).length),
      centeredMatrix constantMatrix [1] i j = 0 := fun i j => key
  unfold totalVariance
  simp [hc]

lemma gramApply_div {R K : ℕ} (A : Fin R → Fin K → ℝ) (v : Fin R → ℝ) (s : ℝ) :
    gramApply A (fun i => v i / s) = fun i => gramApply A v i / s := by
  funext i
  unfold gramApply
  calc ∑ r, (∑ j, A i j * A r j) * (v r / s)
      = ∑ r, ((∑ j, A i j * A r j) * v r) / s := Finset.sum_congr rfl fun r _ => by ring
    _ = (∑ r, (∑ j, A i j * A r j) * v r) / s := by rw [← Finset.sum_div]

lemma exists_dominantPair {R K : ℕ} (hR : 0 < R) (A : Fin R → Fin K → ℝ) :
    ∃ u σ, DominantPair A u σ := by
  classical
  let M : Matrix (Fin R) (Fin R) ℝ := Matrix.of fun i r => ∑ j, A i j * A r j
  have hM : M.IsHermitian := by
    show M.conjTranspose = M
    ext i r
    show star (M r i) = M i r
    rw [star_trivial]
    show (∑ j, A r j * A i j) = ∑ j, A i j * A r j
    exact Finset.sum_congr rfl fun j _ => mul_comm _ _
  have hsym : (Matrix.toEuclideanLin M).IsSymmetric :=
    Matrix.isHermitian_iff_isSymmetric.mp hM
  haveI hne : Nonempty (Fin R) := ⟨⟨0, hR⟩⟩
  haveI : Nontrivial (EuclideanSpace ℝ (Fin R)) := inferInstance
  have happly : ∀ x : EuclideanSpace ℝ (Fin R),
      Matrix.toEuclideanLin M x = gramApply A x := fun x => rfl
  have hinner : ∀ x y : EuclideanSpace ℝ (Fin R), (inner x y : ℝ) = dot x y := by
    intro x y
    simp_rw [PiLp.inner_apply, RCLike.inner_apply, starRingEnd_apply, star_trivial]
    rfl
  have hnorm_sq : ∀ x : EuclideanSpace ℝ (Fin R), ‖x‖ ^ 2 = dot x x := by
    intro x
    rw [EuclideanSpace.norm_eq, Real.sq_sqrt (Finset.sum_nonneg fun i _ => sq_nonneg _),
      dot_self_eq_sum_sq]
    exact Finset.sum_congr rfl fun i _ => by rw [Real.norm_eq_abs, sq_abs]
  have hdotpos : ∀ x : EuclideanSpace ℝ (Fin R), x ≠ 0 → 0 < dot x x := by
    intro x hx
    rw [← hnorm_sq]
    have : 0 < ‖x‖ := norm_pos_iff.mpr hx
    positivity
  set tv : ℝ := ∑ i, ∑ j, A i j ^ 2 with htv
  have hquot : ∀ x : { x : EuclideanSpace ℝ (Fin R) // x ≠ 0 },
      RCLike.re (inner (Matrix.toEuclideanLin M x) (x : EuclideanSpace ℝ (Fin R)) : ℝ) /
        ‖(x : EuclideanSpace ℝ (Fin R))‖ ^ 2 ≤ tv := by
    rintro ⟨x, hx⟩
    rw [RCLike.re_to_real, happly, hinner, hnorm_sq]
    rw [div_le_iff₀ (hdotpos x hx)]
    exact gram_rayleigh_le_total A x
  have hbdd : BddAbove (Set.range fun x : { x : EuclideanSpace ℝ (Fin R) // x ≠ 0 } =>
      RCLike.re (inner (Matrix.toEuclideanLin M x) (x : EuclideanSpace ℝ (Fin R)) : ℝ) /
        ‖(x : EuclideanSpace ℝ (Fin R))‖ ^ 2) := by
    refine ⟨tv, ?_⟩
    rintro y ⟨x, rfl⟩
    exact hquot x
  set μ : ℝ := ⨆ x : { x : EuclideanSpace ℝ (Fin R) // x ≠ 0 },
    RCLike.re (inner (Matrix.toEuclideanLin M x) (x : EuclideanSpace ℝ (Fin R)) : ℝ) /
      ‖(x : EuclideanSpace ℝ (Fin R))‖ ^ 2 with hμ
  have hev := hsym.hasEigenvalue_iSup_of_finiteDimensional
  obtain ⟨w, hw⟩ := hev.exists_hasEigenvector
  have hw0 : w ≠ 0 := hw.2
  have hμ_nonneg : 0 ≤ μ := by
    have h0 : RCLike.re (inner (Matrix.toEuclideanLin M w) (w : EuclideanSpace ℝ (Fin R)) : ℝ) /
        ‖(w : EuclideanSpace ℝ (Fin R))‖ ^ 2 ≤ μ :=
      le_ciSup hbdd (⟨w, hw0⟩ : { x : EuclideanSpace ℝ (Fin R) // x ≠ 0 })
    have h1 : (0 : ℝ) ≤
        RCLike.re (inner (Matrix.toEuclideanLin M w) (w : EuclideanSpace ℝ (Fin R)) : ℝ) /
          ‖(w : EuclideanSpace ℝ (Fin R))‖ ^ 2 := by
      rw [RCLike.re_to_real, happly, hinner]
      exact div_nonneg (gram_rayleigh_nonneg A w) (sq_nonneg _)
    linarith
  have happ_w : gramApply A w = fun i => μ * w i := by
    have h := hw.apply_eq_smul
    rw [happly] at h
    funext i
    have h2 := congrFun h i
    exact h2
  have hdw : dot w w ≠ 0 := (hdotpos w hw0).ne'
  refine ⟨fun i => w i / Real.sqrt (dot w w), Real.sqrt μ, ?_, Real.sqrt_nonneg μ, ?_, ?_⟩
  · exact normalize_unit w hdw
  · rw [gramApply_div, happ_w, Real.sq_sqrt hμ_nonneg]
    funext i
    ring
  · intro v hv
    rw [Real.sq_sqrt hμ_nonneg]
    have hv0 : v ≠ 0 := by
      intro h
      rw [h] at hv
      unfold dot at hv
      simp at hv
    have h := le_ciSup hbdd (⟨v, hv0⟩ : { x : EuclideanSpace ℝ (Fin R) // x ≠ 0 })
    rw [RCLike.re_to_real, happly, hinner, hnorm_sq, hv, div_one] at h
    exact h

lemma svdSpec_invalid_eq {B : BigMatrix} {idx : List ℤ} {o : SvdOutcome B.nrow}
    (h : anyOutOfRange B.ncol idx = true) (ho : SvdPropsSpec B idx o) :
    o = .error (.outOfRange outOfRangeMessage) := by
  cases ho with
  | outOfRange _ => rfl
  | degenerate h2 _ => rw [h] at h2; simp at h2
  | ok h2 _ _ _ _ => rw [h] at h2; simp at h2

lemma svdSpec_degenerate_eq {B : BigMatrix} {idx : List ℤ} {o : SvdOutcome B.nrow}
    (h : anyOutOfRange B.ncol idx = false) (hv : totalVariance B idx = 0)
    (ho : SvdPropsSpec B idx o) : o = .error .degenerateInput := by
  cases ho with
  | outOfRange h2 => rw [h] at h2; simp at h2
  | degenerate _ _ => rfl
  | ok _ hv2 _ _ _ => exact absurd hv hv2

lemma anyOutOfRange_false_iff (C : ℕ) (idx : List ℤ) :
    anyOutOfRange C idx = false ↔ ∀ k ∈ idx, 1 ≤ k ∧ k ≤ (C : ℤ) := by
  rw [← Bool.not_eq_true, anyOutOfRange_iff_exists]
  push_neg
  exact ⟨fun h k hk => ⟨by linarith [(h k hk).1], (h k hk).2⟩,
         fun h k hk => ⟨by linarith [(h k hk).1], (h k hk).2⟩⟩

lemma scenario_invalid4 :
    SvdPropsSpec scenarioMatrix [4] (.error (.outOfRange outOfRangeMessage)) :=
  SvdPropsSpec.outOfRange (by decide)

lemma scenario_invalid5 :
    SvdPropsSpec scenarioMatrix [5] (.error (.outOfRange outOfRangeMessage)) :=
  SvdPropsSpec.outOfRange (by decide)

/-- C1: for every subsetIndices sequence containing a value below 1 or above
the column count, the operation fails with the OutOfRange error (the exact
message thrown by the source) and with nothing else; the outcome is the same
for every entry accessor with those dimensions, so no column data is read and
the validation has no side effects. -/
theorem outOfRange_failure_entry_independent (B : BigMatrix) (idx : List ℤ)
    (hbad : ∃ k ∈ idx, k < 1 ∨ (B.ncol : ℤ) < k) :
    ∀ (entry2 : ℕ → ℕ → ℝ) (o : SvdOutcome B.nrow),
      SvdPropsSpec ⟨B.nrow, B.ncol, entry2, B.nrow_pos, B.ncol_pos⟩ idx o ↔
        o = .error (.outOfRange outOfRangeMessage) := by
  intro entry2 o
  obtain ⟨k, hk, hcond⟩ := hbad
  have hany : anyOutOfRange B.ncol idx = true := by
    rw [anyOutOfRange_iff_exists]
    refine ⟨k, hk, ?_⟩
    rcases hcond with h | h
    · exact Or.inl (by omega)
    · exact Or.inr h
  constructor
  · intro ho
    exact @svdSpec_invalid_eq ⟨B.nrow, B.ncol, entry2, B.nrow_pos, B.ncol_pos⟩ idx o hany ho
  · rintro rfl
    exact SvdPropsSpec.outOfRange hany

/-- C1 witness: requesting index 4 against the 3-column scenario matrix fails
with the OutOfRange error. -/
theorem outOfRange_failure_entry_independent_witness :
    SvdPropsSpec scenarioMatrix [4] (.error (.outOfRange outOfRangeMessage)) := by
  have h := outOfRange_failure_entry_independent scenarioMatrix [4]
    ⟨4, by simp, Or.inr (by norm_num [scenarioMatrix])⟩
    scenarioMatrix.entry (.error (.outOfRange outOfRangeMessage))
  exact h.mpr rfl

/-- C2: for every input some outcome exists (an out-of-range failure, a
degenerate-input failure, or a complete result), and every successful result
carries a dense eigenvector of rowCount many reals (its type) together with a
variance-explained value inside the unit interval; no partial result is
possible. -/
theorem svdProps_total_and_variance_bounded (B : BigMatrix) (idx : List ℤ) :
    (∃ o, SvdPropsSpec B idx o) ∧
      ∀ r : EigenResult B.nrow, SvdPropsSpec B idx (.ok r) →
        0 ≤ r.varianceExplained ∧ r.varianceExplained ≤ 1 := by
  constructor
  · by_cases hval : anyOutOfRange B.ncol idx = true
    · exact ⟨_, SvdPropsSpec.outOfRange hval⟩
    · have hval2 : anyOutOfRange B.ncol idx = false := by
        simpa using hval
      by_cases htv : totalVariance B idx = 0
      · exact ⟨_, SvdPropsSpec.degenerate hval2 htv⟩
      · obtain ⟨u, σ, hd⟩ := exists_dominantPair B.nrow_pos (centeredMatrix B idx)
        exact ⟨_, SvdPropsSpec.ok hval2 htv u σ hd⟩
  · intro r hr
    cases hr with
    | ok h hv u σ hd =>
      have htv_pos : 0 < totalVariance B idx :=
        lt_of_le_of_ne (totalVariance_nonneg B idx) (Ne.symm hv)
      constructor
      · exact div_nonneg (sq_nonneg σ) htv_pos.le
      · rw [div_le_one htv_pos]
        exact hd.sq_le_total

/-- C2 witness: on the scenario matrix with indices 1 and 2 the operation has
an outcome, and its result value has variance explained inside the unit
interval. -/
theorem svdProps_total_and_variance_bounded_witness :
    0 ≤ scenarioResult.varianceExplained ∧ scenarioResult.varianceExplained ≤ 1 ∧
      ∃ o, SvdPropsSpec scenarioMatrix [1, 2] o := by
  have h := svdProps_total_and_variance_bounded scenarioMatrix [1, 2]
  have hb := h.2 scenarioResult scenarioSpec12
  exact ⟨hb.1, hb.2, h.1⟩

/-- C4: every eigenvector returned by the operation is a unit vector: the sum
of its squared entries, hence its Euclidean norm, is exactly 1. -/
theorem eigenvector_unit_norm (B : BigMatrix) (idx : List ℤ)
    (r : EigenResult B.nrow) (h : SvdPropsSpec B idx (.ok r)) :
    dot r.eigenvector r.eigenvector = 1 ∧
      Real.sqrt (dot r.eigenvector r.eigenvector) = 1 := by
  cases h with
  | ok h hv u σ hd =>
    have h1 : dot (signCorrect (colAverage B idx) u) (signCorrect (colAverage B idx) u) = 1 := by
      rw [signCorrect_dot_self]
      exact hd.unit
    exact ⟨h1, by rw [h1, Real.sqrt_one]⟩

/-- C4 witness: the eigenvector returned on the scenario matrix with indices
1 and 2 has unit norm. -/
theorem eigenvector_unit_norm_witness :
    dot scenarioResult.eigenvector scenarioResult.eigenvector = 1 ∧
      Real.sqrt (dot scenarioResult.eigenvector scenarioResult.eigenvector) = 1 :=
  eigenvector_unit_norm scenarioMatrix [1, 2] scenarioResult scenarioSpec12

/-- C5: the dot product of every returned eigenvector with the column-average
vector of the selected submatrix is non-negative. -/
theorem eigenvector_avg_dot_nonneg (B : BigMatrix) (idx : List ℤ)
    (r : EigenResult B.nrow) (h : SvdPropsSpec B idx (.ok r)) :
    0 ≤ dot r.eigenvector (colAverage B idx) := by
  cases h with
  | ok h hv u σ hd =>
    exact signCorrect_dot_avg_nonneg (colAverage B idx) u

/-- C5 witness: on the scenario matrix with indices 1 and 2 the returned
eigenvector has non-negative dot product with the column average. -/
theorem eigenvector_avg_dot_nonneg_witness :
    0 ≤ dot scenarioResult.eigenvector (colAverage scenarioMatrix [1, 2]) :=
  eigenvector_avg_dot_nonneg scenarioMatrix [1, 2] scenarioResult scenarioSpec12

/-- C6: every returned variance-explained value lies in the half-open unit
interval (0, 1] and equals the squared dominant singular value divided by the
total variance of the working matrix. -/
theorem varianceExplained_in_unit_interval (B : BigMatrix) (idx : List ℤ)
    (r : EigenResult B.nrow) (h : SvdPropsSpec B idx (.ok r)) :
    0 < r.varianceExplained ∧ r.varianceExplained ≤ 1 ∧
      ∃ u σ, DominantPair (centeredMatrix B idx) u σ ∧
        r.varianceExplained = σ ^ 2 / totalVariance B idx := by
  cases h with
  | ok h hv u σ hd =>
    have htv_pos : 0 < totalVariance B idx :=
      lt_of_le_of_ne (totalVariance_nonneg B idx) (Ne.symm hv)
    have hσ_pos : 0 < σ ^ 2 := hd.sq_pos hv
    refine ⟨div_pos hσ_pos htv_pos, ?_, u, σ, hd, rfl⟩
    rw [div_le_one htv_pos]
    exact hd.sq_le_total

/-- C6 witness: on the scenario matrix with indices 1 and 2 the variance
explained is in (0, 1] and has the documented ratio form. -/
theorem varianceExplained_in_unit_interval_witness :
    0 < scenarioResult.varianceExplained ∧ scenarioResult.varianceExplained ≤ 1 ∧
      ∃ u σ, DominantPair (centeredMatrix scenarioMatrix [1, 2]) u σ ∧
        scenarioResult.varianceExplained = σ ^ 2 / totalVariance scenarioMatrix [1, 2] :=
  varianceExplained_in_unit_interval scenarioMatrix [1, 2] scenarioResult scenarioSpec12

/-- C10: the index validation raises OutOfRange exactly when some entry is
non-positive or exceeds the column count, and imposes no other condition: the
empty sequence passes, and duplicated in-range indices pass. -/
theorem validation_iff_bounds (C : ℕ) (idx : List ℤ) :
    (anyOutOfRange C idx = true ↔ ∃ k ∈ idx, k ≤ 0 ∨ (C : ℤ) < k) ∧
      anyOutOfRange C [] = false ∧
      (∀ k : ℤ, 1 ≤ k → k ≤ (C : ℤ) → anyOutOfRange C [k, k] = false) := by
  refine ⟨anyOutOfRange_iff_exists C idx, rfl, ?_⟩
  intro k h1 h2
  rw [anyOutOfRange_false_iff]
  intro x hx
  rcases List.mem_pair.mp hx with rfl | rfl
  · exact ⟨h1, h2⟩
  · exact ⟨h1, h2⟩

/-- C3 counterexample: on the scenario matrix with indices 1 and 2 the
operation does return variance explained 1, but its eigenvector is not the
claimed unit vector proportional to (1, 2, 3, 4): the returned first entry is
negative while the claimed one is positive. -/
theorem scenario_eigenvector_not_claimed :
    SvdPropsSpec scenarioMatrix [1, 2] (.ok scenarioResult) ∧
      scenarioResult.varianceExplained = 1 ∧
      scenarioResult.eigenvector 0 < 0 ∧
      0 < claimedScenarioEigenvector 0 ∧
      scenarioResult.eigenvector ≠ claimedScenarioEigenvector := by
  have hneg : scenarioResult.eigenvector 0 < 0 := by
    show cVec 0 / Real.sqrt 5 < 0
    apply div_neg_of_neg_of_pos
    · norm_num [cVec]
    · exact Real.sqrt_pos.mpr (by norm_num)
  have hpos : 0 < claimedScenarioEigenvector 0 := by
    show (0 : ℝ) < ![(1 : ℝ), 2, 3, 4] 0 / Real.sqrt 30
    apply div_pos
    · norm_num
    · exact Real.sqrt_pos.mpr (by norm_num)
  refine ⟨scenarioSpec12, rfl, hneg, hpos, ?_⟩
  intro h
  have h0 := congrFun h 0
  rw [h0] at hneg
  linarith

/-- C3 (amended): on the 4 by 3 scenario matrix, requesting indices 1 and 2
yields a unique outcome: variance explained 1 and the unit eigenvector
proportional to the centered column direction (-3, -1, 1, 3) — concretely
cVec divided by √5 — oriented to have non-negative dot product with the
average of columns 1 and 2; the raw direction (1, 2, 3, 4) of the original
claim is not returned because the solver centers the columns first. -/
theorem scenario_outcome_unique (o : SvdOutcome scenarioMatrix.nrow)
    (ho : SvdPropsSpec scenarioMatrix [1, 2] o) :
    o = .ok scenarioResult ∧ scenarioResult.varianceExplained = 1 ∧
      (∀ i, scenarioResult.eigenvector i = cVec i / Real.sqrt 5) ∧
      0 ≤ dot scenarioResult.eigenvector (colAverage scenarioMatrix [1, 2]) := by
  have havg : dot scenarioResult.eigenvector (colAverage scenarioMatrix [1, 2]) =
      dot cVec (colAverage scenarioMatrix [1, 2]) / Real.sqrt 5 := by
    show dot (fun i => cVec i / Real.sqrt 5) (colAverage scenarioMatrix [1, 2]) = _
    rw [dot_div_left]
  refine ⟨?_, rfl, fun i => rfl, ?_⟩
  · cases ho with
    | outOfRange h =>
      rw [scenario_valid12] at h
      simp at h
    | degenerate h hv =>
      rw [scenario_tv12] at hv
      norm_num at hv
    | ok h hv u σ hd =>
      rw [scenario_centered12] at hd
      have hcc : dot cVec cVec ≠ 0 := by rw [scenario_cc]; norm_num
      have hww : dot wVec wVec ≠ 0 := by rw [scenario_ww]; norm_num
      obtain ⟨hσ2, hu⟩ := dominantPair_rankOne_inv hcc hww hd
      have hve : σ ^ 2 / totalVariance scenarioMatrix [1, 2] = 1 := by
        rw [hσ2, scenario_cc, scenario_ww, scenario_tv12]
        norm_num
      have husign : signCorrect (colAverage scenarioMatrix [1, 2]) u =
          scenarioEigenvector := by
        rcases hu with hu | hu
        · have hu2 : u = scenarioEigenvector := by rw [hu, scenario_cc]; rfl
          rw [hu2]
          exact scenario_sign12
        · have hu2 : u = -scenarioEigenvector := by rw [hu, scenario_cc]; rfl
          rw [hu2]
          have hdot : dot (-scenarioEigenvector) (colAverage scenarioMatrix [1, 2]) < 0 := by
            rw [dot_neg_left]
            have heq : dot scenarioEigenvector (colAverage scenarioMatrix [1, 2]) =
                dot cVec (colAverage scenarioMatrix [1, 2]) / Real.sqrt 5 := by
              show dot (fun i => cVec i / Real.sqrt 5) (colAverage scenarioMatrix [1, 2]) = _
              rw [dot_div_left]
            rw [heq, scenario_avg12_dot]
            have h5 : (0 : ℝ) < 15 / 2 / Real.sqrt 5 := by positivity
            linarith
          rw [signCorrect_of_neg hdot, neg_neg]
      rw [husign, hve]
      rfl
  · rw [havg, scenario_avg12_dot]
    positivity

/-- C3 witness: the amended scenario statement holds at the concrete
outcome. -/
theorem scenario_outcome_unique_witness :
    (Except.ok scenarioResult : SvdOutcome scenarioMatrix.nrow) = .ok scenarioResult ∧
      scenarioResult.varianceExplained = 1 ∧
      scenarioResult.eigenvector 0 = cVec 0 / Real.sqrt 5 ∧
      0 ≤ dot scenarioResult.eigenvector (colAverage scenarioMatrix [1, 2]) := by
  obtain ⟨h1, h2, h3, h4⟩ := scenario_outcome_unique (.ok scenarioResult) scenarioSpec12
  exact ⟨h1, h2, h3 0, h4⟩

/-- C7: for a single in-range index selecting a non-constant column the
operation succeeds with variance explained 1, and the returned eigenvector is
the centered, unit-normalized selected column up to the sign convention. -/
theorem single_column_case (B : BigMatrix) (k : ℤ) (hk1 : 1 ≤ k)
    (hk2 : k ≤ (B.ncol : ℤ))
    (hnc : ∃ i1 i2 : Fin B.nrow, B.entry i1 (k.toNat - 1) ≠ B.entry i2 (k.toNat - 1))
    (o : SvdOutcome B.nrow) (ho : SvdPropsSpec B [k] o) :
    ∃ r : EigenResult B.nrow, o = .ok r ∧ r.varianceExplained = 1 ∧
      (r.eigenvector = normalizedCenteredColumn B k ∨
        r.eigenvector = -normalizedCenteredColumn B k) := by
  set c : Fin B.nrow → ℝ := fun i => centeredMatrix B [k] i ⟨0, Nat.one_pos⟩ with hc_def
  have h_eq : centeredMatrix B [k] = fun i j => c i * oneVec j := by
    funext i j
    have hj0 : (j : ℕ) = 0 := Nat.lt_one_iff.mp j.isLt
    have hj : j = ⟨0, Nat.one_pos⟩ := Fin.ext hj0
    rw [hj]
    show c i = c i * oneVec ⟨0, Nat.one_pos⟩
    have h1 : oneVec ⟨0, Nat.one_pos⟩ = 1 := rfl
    rw [h1, mul_one]
  have hcc : dot c c ≠ 0 := by
    intro h0
    have hall : ∀ i, c i = 0 := (dot_self_eq_zero_iff c).mp h0
    obtain ⟨i1, i2, hne⟩ := hnc
    have h1 : B.entry i1 (k.toNat - 1) -
        (∑ r, workingMatrix B [k] r ⟨0, Nat.one_pos⟩) / (B.nrow : ℝ) = 0 := hall i1
    have h2 : B.entry i2 (k.toNat - 1) -
        (∑ r, workingMatrix B [k] r ⟨0, Nat.one_pos⟩) / (B.nrow : ℝ) = 0 := hall i2
    exact hne (by linarith)
  have hww1 : dot oneVec oneVec ≠ 0 := by rw [one_ww]; norm_num
  have htv : totalVariance B [k] = dot c c := by
    unfold totalVariance
    rw [h_eq]
    calc (∑ i, ∑ j, (fun i j => c i * oneVec j) i j ^ 2)
        = ∑ i, ∑ j, (c i * oneVec j) ^ 2 := rfl
      _ = dot c c * dot oneVec oneVec := rankOne_total c oneVec
      _ = dot c c := by rw [one_ww, mul_one]
  cases ho with
  | outOfRange h =>
    have hval : anyOutOfRange B.ncol [k] = false := by
      rw [anyOutOfRange_false_iff]
      intro x hx
      rw [List.mem_singleton] at hx
      subst hx
      exact ⟨hk1, hk2⟩
    rw [hval] at h
    simp at h
  | degenerate h hv =>
    rw [htv] at hv
    exact absurd hv hcc
  | ok h hv u σ hd =>
    rw [h_eq] at hd
    obtain ⟨hσ2, hu⟩ := dominantPair_rankOne_inv hcc hww1 hd
    refine ⟨_, rfl, ?_, ?_⟩
    · show σ ^ 2 / totalVariance B [k] = 1
      rw [hσ2, htv, one_ww, one_mul]
      exact div_self hcc
    · have hncc : (fun i => c i / Real.sqrt (dot c c)) = normalizedCenteredColumn B k := rfl
      rcases signCorrect_eq_or (colAverage B [k]) u with hs | hs <;>
        rcases hu with hu | hu
      · exact Or.inl (by show signCorrect (colAverage B [k]) u = _; rw [hs, hu, hncc])
      · exact Or.inr (by show signCorrect (colAverage B [k]) u = _; rw [hs, hu]; rfl)
      · exact Or.inr (by show signCorrect (colAverage B [k]) u = _; rw [hs, hu, hncc])
      · refine Or.inl (by
          show signCorrect (colAverage B [k]) u = _
          rw [hs, hu]
          funext i
          show -(-(c i / Real.sqrt (dot c c))) = normalizedCenteredColumn B k i
          rw [neg_neg]
          exact congrFun hncc i)

/-- C7 witness: selecting only column 1 of the scenario matrix yields
variance explained 1 and the centered normalized column up to sign. -/
theorem single_column_case_witness :
    scenarioResult.varianceExplained = 1 ∧
      (scenarioResult.eigenvector = normalizedCenteredColumn scenarioMatrix 1 ∨
        scenarioResult.eigenvector = -normalizedCenteredColumn scenarioMatrix 1) := by
  obtain ⟨r, hr, h1, h2⟩ := single_column_case scenarioMatrix 1 (by norm_num)
    (by norm_num [scenarioMatrix])
    ⟨⟨0, by norm_num [scenarioMatrix]⟩, ⟨1, by norm_num [scenarioMatrix]⟩,
      by norm_num [scenarioMatrix, scenarioEntry, int_toNat_one]⟩
    (.ok scenarioResult) scenarioSpec1
  obtain rfl : scenarioResult = r := by injection hr
  exact ⟨h1, h2⟩

/-- C8: for in-range indices all of whose selected columns are constant, the
operation fails with DegenerateInput, and that is its only possible outcome:
no NaN or arbitrary eigenvector can be produced. -/
theorem degenerate_subset_fails (B : BigMatrix) (idx : List ℤ)
    (hvalid : ∀ k ∈ idx, 1 ≤ k ∧ k ≤ (B.ncol : ℤ))
    (hconst : ∀ (j : Fin idx.length) (i1 i2 : Fin B.nrow),
      B.entry i1 ((idx.get j).toNat - 1) = B.entry i2 ((idx.get j).toNat - 1)) :
    ∀ o, SvdPropsSpec B idx o ↔ o = .error .degenerateInput := by
  have hval : anyOutOfRange B.ncol idx = false := (anyOutOfRange_false_iff _ _).mpr hvalid
  have htv : totalVariance B idx = 0 := by
    unfold totalVariance
    refine Finset.sum_eq_zero fun i _ => Finset.sum_eq_zero fun j _ => ?_
    have hsum : (∑ r, workingMatrix B idx r j) = (B.nrow : ℝ) * workingMatrix B idx i j := by
      have hstep : (∑ r : Fin B.nrow, workingMatrix B idx r j) =
          ∑ _r : Fin B.nrow, workingMatrix B idx i j :=
        Finset.sum_congr rfl fun r _ => hconst j r i
      rw [hstep, Finset.sum_const, Finset.card_univ, Fintype.card_fin, nsmul_eq_mul]
    have hc0 : centeredMatrix B idx i j = 0 := by
      show workingMatrix B idx i j - (∑ r, workingMatrix B idx r j) / (B.nrow : ℝ) = 0
      rw [hsum]
      have hR : ((B.nrow : ℕ) : ℝ) ≠ 0 := Nat.cast_ne_zero.mpr B.nrow_pos.ne'
      field_simp
    rw [hc0]
    norm_num
  intro o
  constructor
  · exact svdSpec_degenerate_eq hval htv
  · rintro rfl
    exact SvdPropsSpec.degenerate hval htv

/-- C8 witness: the 2 by 1 constant matrix with index 1 fails with
DegenerateInput. -/
theorem degenerate_subset_fails_witness :
    SvdPropsSpec constantMatrix [1] (.error .degenerateInput) := by
  refine (degenerate_subset_fails constantMatrix [1] ?_ ?_ _).mpr rfl
  · intro x hx
    rw [List.mem_singleton] at hx
    subst hx
    exact ⟨le_refl 1, by norm_num [constantMatrix]⟩
  · intro j i1 i2
    rfl

/-- C9 counterexample: the two failing inputs with distinct invalid indices 4
and 5 produce one and the same error value, the fixed OutOfRange message, so
the propagated error cannot identify the invalid index as the claim
states. -/
theorem outOfRange_error_not_index_specific :
    SvdPropsSpec scenarioMatrix [4] (.error (.outOfRange outOfRangeMessage)) ∧
      SvdPropsSpec scenarioMatrix [5] (.error (.outOfRange outOfRangeMessage)) ∧
      (4 : ℤ) ≠ 5 := by
  exact ⟨scenario_invalid4, scenario_invalid5, by norm_num⟩

/-- C9 (amended): every error outcome identifies which precondition was
violated — an OutOfRange failure carries the fixed message and certifies that
some index is non-positive or exceeds the column count (but not which), and a
DegenerateInput failure certifies in-range indices with zero total
variance. -/
theorem error_identifies_precondition (B : BigMatrix) (idx : List ℤ)
    (e : SvdError) (h : SvdPropsSpec B idx (.error e)) :
    (e = .outOfRange outOfRangeMessage ∧ ∃ k ∈ idx, k ≤ 0 ∨ (B.ncol : ℤ) < k) ∨
      (e = .degenerateInput ∧ totalVariance B idx = 0 ∧
        ∀ k ∈ idx, 1 ≤ k ∧ k ≤ (B.ncol : ℤ)) := by
  cases h with
  | outOfRange h2 =>
    exact Or.inl ⟨rfl, (anyOutOfRange_iff_exists _ _).mp h2⟩
  | degenerate h2 hv =>
    exact Or.inr ⟨rfl, hv, (anyOutOfRange_false_iff _ _).mp h2⟩

/-- C9 witness: applying the amended statement to the failing input with
index 4 against the 3-column scenario matrix certifies the out-of-range
precondition for that index. -/
theorem error_identifies_precondition_witness :
    (4 : ℤ) ≤ 0 ∨ (scenarioMatrix.ncol : ℤ) < 4 := by
  have h := error_identifies_precondition scenarioMatrix [4]
    (.outOfRange outOfRangeMessage) scenario_invalid4
  rcases h with ⟨he, k, hk, hcond⟩ | ⟨he, hrest⟩
  · obtain rfl : k = 4 := List.mem_singleton.mp hk
    exact hcond
  · exact absurd he (by simp)

/-- C10 witness: against 3 columns, the empty sequence and the duplicated
sequence with index 2 pass validation, while index 4 is rejected. -/
theorem validation_iff_bounds_witness :
    anyOutOfRange 3 [] = false ∧ anyOutOfRange 3 [2, 2] = false ∧
      anyOutOfRange 3 [4] = true := by
  refine ⟨(validation_iff_bounds 3 []).2.1,
    (validation_iff_bounds 3 [2, 2]).2.2 2 (by norm_num) (by norm_num), ?_⟩
  exact (validation_iff_bounds 3 [4]).1.mpr ⟨4, by simp, Or.inr (by norm_num)⟩

end NetRep
